import Mathlib

/-!
# Verification of the MemCapture sampling and statistics engine

Shallow embedding of the core of the MemCapture repository
(`Measurement`, `Process`, `ProcessMetric::DeduplicateData`,
`MemInfo::parseMemInfo`, `Smaps::parseSmaps` / `parseSmapsRollup`,
`MemoryMetric::CalculateFragmentation`) together with theorems checking
the natural-language specification against the code.

Floating-point quantities (`double` / `long double`) are modelled by exact
rational arithmetic; the two `std::numeric_limits<double>` sentinels that the
code stores into `Measurement` are modelled as the exact rational values of
those doubles.  Machine integers are modelled by `ℤ`/`ℕ`; where a width
constraint matters for a statement, it appears as an explicit hypothesis.
-/

namespace MemCapture

/-- The exact rational value of `std::numeric_limits<double>::max()`,
`(2^53 - 1) * 2^971`, used by `Measurement::Measurement` to seed `mMin`. -/
def dblMax : ℚ := (2 ^ 53 - 1) * 2 ^ 971

/-- The exact rational value of `std::numeric_limits<double>::min()` — the
smallest positive *normal* double, `2⁻¹⁰²²` — used by
`Measurement::Measurement` to seed `mMax`. -/
def dblMinPos : ℚ := 1 / 2 ^ 1022

/-- `(int) std::round(x)`: round half away from zero, exact on rationals. -/
def cround (x : ℚ) : ℤ := if x < 0 then -⌊-x + 1 / 2⌋ else ⌊x + 1 / 2⌋

/-- State of `Measurement` (src/Measurement.h): a named streaming
min/max/average accumulator. -/
structure Measurement where
  mName : String
  mCount : ℕ
  mMin : ℚ
  mMax : ℚ
  mAverage : ℚ
  mTotal : ℚ
  deriving DecidableEq, Repr

/-- `Measurement::Measurement(name)` (src/Measurement.cpp): count and totals
zeroed, `mMin` seeded with `numeric_limits<double>::max()` and `mMax` with
`numeric_limits<double>::min()` (the smallest positive normal, not the
lowest representable double). -/
def Measurement.init (name : String) : Measurement :=
  { mName := name, mCount := 0, mMin := dblMax, mMax := dblMinPos,
    mAverage := 0, mTotal := 0 }

/-- `Measurement::AddDataPoint` (src/Measurement.cpp): update running
min/max/total/count and set `mAverage = mTotal / mCount`. -/
def Measurement.AddDataPoint (m : Measurement) (value : ℚ) : Measurement :=
  let newMin := if value < m.mMin then value else m.mMin
  let newMax := if value > m.mMax then value else m.mMax
  let newTotal := m.mTotal + value
  let newCount := m.mCount + 1
  { m with mMin := newMin, mMax := newMax, mTotal := newTotal,
           mCount := newCount, mAverage := newTotal / (newCount : ℚ) }

/-- `Measurement::GetMin`. -/
def Measurement.GetMin (m : Measurement) : ℚ := m.mMin

/-- `Measurement::GetMax`. -/
def Measurement.GetMax (m : Measurement) : ℚ := m.mMax

/-- `Measurement::GetAverage`. -/
def Measurement.GetAverage (m : Measurement) : ℚ := m.mAverage

/-- `Measurement::GetAverageRounded`: `(int) std::round(mAverage)`. -/
def Measurement.GetAverageRounded (m : Measurement) : ℤ := cround m.mAverage

/-- A whole sequence of `AddDataPoint` calls. -/
def Measurement.addAll (m : Measurement) (vs : List ℚ) : Measurement :=
  vs.foldl Measurement.AddDataPoint m

theorem Measurement.addAll_cons (m : Measurement) (v : ℚ) (vs : List ℚ) :
    m.addAll (v :: vs) = (m.AddDataPoint v).addAll vs := rfl

theorem Measurement.addAll_count (m : Measurement) (vs : List ℚ) :
    (m.addAll vs).mCount = m.mCount + vs.length := by
  induction vs generalizing m with
  | nil => simp [Measurement.addAll]
  | cons v vs ih =>
    rw [Measurement.addAll_cons, ih]
    simp [Measurement.AddDataPoint]
    omega

theorem Measurement.addAll_total (m : Measurement) (vs : List ℚ) :
    (m.addAll vs).mTotal = m.mTotal + vs.sum := by
  induction vs generalizing m with
  | nil => simp [Measurement.addAll]
  | cons v vs ih =>
    rw [Measurement.addAll_cons, ih]
    simp [Measurement.AddDataPoint]
    ring

/-- Every `AddDataPoint` reestablishes `mAverage = mTotal / mCount`. -/
theorem Measurement.addAll_average (m : Measurement) (vs : List ℚ)
    (h : m.mAverage = m.mTotal / (m.mCount : ℚ)) :
    (m.addAll vs).mAverage = (m.addAll vs).mTotal / ((m.addAll vs).mCount : ℚ) := by
  induction vs generalizing m with
  | nil => simpa [Measurement.addAll] using h
  | cons v vs ih =>
    rw [Measurement.addAll_cons]
    exact ih _ rfl

theorem Measurement.AddDataPoint_min_le (m : Measurement) (v : ℚ) :
    (m.AddDataPoint v).mMin ≤ m.mMin := by
  simp only [Measurement.AddDataPoint]
  split
  · linarith
  · exact le_rfl

theorem Measurement.AddDataPoint_min_le_val (m : Measurement) (v : ℚ) :
    (m.AddDataPoint v).mMin ≤ v := by
  simp only [Measurement.AddDataPoint]
  split
  · exact le_rfl
  · linarith

theorem Measurement.le_AddDataPoint_max (m : Measurement) (v : ℚ) :
    m.mMax ≤ (m.AddDataPoint v).mMax := by
  simp only [Measurement.AddDataPoint]
  split
  · linarith
  · exact le_rfl

theorem Measurement.val_le_AddDataPoint_max (m : Measurement) (v : ℚ) :
    v ≤ (m.AddDataPoint v).mMax := by
  simp only [Measurement.AddDataPoint]
  split
  · exact le_rfl
  · linarith

theorem Measurement.addAll_min_le (m : Measurement) (vs : List ℚ) :
    (m.addAll vs).mMin ≤ m.mMin := by
  induction vs generalizing m with
  | nil => simp [Measurement.addAll]
  | cons v vs ih =>
    rw [Measurement.addAll_cons]
    exact le_trans (ih _) (Measurement.AddDataPoint_min_le _ _)

theorem Measurement.le_addAll_max (m : Measurement) (vs : List ℚ) :
    m.mMax ≤ (m.addAll vs).mMax := by
  induction vs generalizing m with
  | nil => simp [Measurement.addAll]
  | cons v vs ih =>
    rw [Measurement.addAll_cons]
    exact le_trans (Measurement.le_AddDataPoint_max _ _) (ih _)

theorem Measurement.addAll_min_le_mem (m : Measurement) (vs : List ℚ) :
    ∀ v ∈ vs, (m.addAll vs).mMin ≤ v := by
  induction vs generalizing m with
  | nil => simp
  | cons w ws ih =>
    intro v hv
    rcases List.mem_cons.mp hv with h | h
    · subst h
      rw [Measurement.addAll_cons]
      exact le_trans (Measurement.addAll_min_le _ _) (Measurement.AddDataPoint_min_le_val _ _)
    · rw [Measurement.addAll_cons]
      exact ih _ v h

theorem Measurement.addAll_mem_le_max (m : Measurement) (vs : List ℚ) :
    ∀ v ∈ vs, v ≤ (m.addAll vs).mMax := by
  induction vs generalizing m with
  | nil => simp
  | cons w ws ih =>
    intro v hv
    rcases List.mem_cons.mp hv with h | h
    · subst h
      rw [Measurement.addAll_cons]
      exact le_trans (Measurement.val_le_AddDataPoint_max _ _) (Measurement.le_addAll_max _ _)
    · rw [Measurement.addAll_cons]
      exact ih _ v h

/-- C3: after any non-empty sequence of `AddDataPoint` calls on a fresh
`Measurement`, `GetMin() ≤ GetAverage() ≤ GetMax()`, and `GetAverage()` is
exactly the running total divided by the number of calls. -/
theorem C3_measurement_min_avg_max (name : String) (vs : List ℚ) (hne : vs ≠ []) :
    ((Measurement.init name).addAll vs).GetMin ≤ ((Measurement.init name).addAll vs).GetAverage ∧
    ((Measurement.init name).addAll vs).GetAverage ≤ ((Measurement.init name).addAll vs).GetMax ∧
    ((Measurement.init name).addAll vs).GetAverage
      = ((Measurement.init name).addAll vs).mTotal / (((Measurement.init name).addAll vs).mCount : ℚ) ∧
    ((Measurement.init name).addAll vs).mTotal = vs.sum ∧
    ((Measurement.init name).addAll vs).mCount = vs.length := by
  set m := (Measurement.init name).addAll vs with hm
  have hcount : m.mCount = vs.length := by
    rw [hm, Measurement.addAll_count]; simp [Measurement.init]
  have htotal : m.mTotal = vs.sum := by
    rw [hm, Measurement.addAll_total]; simp [Measurement.init]
  have havg : m.mAverage = m.mTotal / (m.mCount : ℚ) := by
    rw [hm]
    exact Measurement.addAll_average _ _ (by simp [Measurement.init])
  have hlen : 0 < vs.length := List.length_pos.mpr hne
  have hlenQ : (0 : ℚ) < (vs.length : ℚ) := by exact_mod_cast hlen
  have hminmem : ∀ v ∈ vs, m.mMin ≤ v := by
    rw [hm]; exact Measurement.addAll_min_le_mem _ _
  have hmaxmem : ∀ v ∈ vs, v ≤ m.mMax := by
    rw [hm]; exact Measurement.addAll_mem_le_max _ _
  have hsum_lower : (vs.length : ℚ) * m.mMin ≤ vs.sum := by
    have := List.card_nsmul_le_sum vs m.mMin hminmem
    simpa [nsmul_eq_mul] using this
  have hsum_upper : vs.sum ≤ (vs.length : ℚ) * m.mMax := by
    have := List.sum_le_card_nsmul vs m.mMax hmaxmem
    simpa [nsmul_eq_mul] using this
  have havg' : m.mAverage = vs.sum / (vs.length : ℚ) := by
    rw [havg, htotal, hcount]
  refine ⟨?_, ?_, havg, htotal, hcount⟩
  · show m.mMin ≤ m.mAverage
    rw [havg']
    rw [le_div_iff hlenQ]
    linarith [hsum_lower]
  · show m.mAverage ≤ m.mMax
    rw [havg']
    rw [div_le_iff hlenQ]
    linarith [hsum_upper]

/-- Witness for C3 at the concrete input `[3, 5]`. -/
theorem C3_measurement_min_avg_max_witness :
    ((Measurement.init "x").addAll [3, 5]).GetMin ≤ ((Measurement.init "x").addAll [3, 5]).GetAverage ∧
    ((Measurement.init "x").addAll [3, 5]).GetAverage ≤ ((Measurement.init "x").addAll [3, 5]).GetMax ∧
    ((Measurement.init "x").addAll [3, 5]).GetAverage
      = ((Measurement.init "x").addAll [3, 5]).mTotal / (((Measurement.init "x").addAll [3, 5]).mCount : ℚ) ∧
    ((Measurement.init "x").addAll [3, 5]).mTotal = ([3, 5] : List ℚ).sum ∧
    ((Measurement.init "x").addAll [3, 5]).mCount = ([3, 5] : List ℚ).length :=
  C3_measurement_min_avg_max "x" [3, 5] (by decide)

/-- If `mMax` holds the sentinel and every added value is below the sentinel,
`mMax` is never overwritten. -/
theorem Measurement.addAll_max_stuck (vs : List ℚ) (m : Measurement)
    (hmax : m.mMax = dblMinPos) (hlt : ∀ v ∈ vs, v < dblMinPos) :
    (m.addAll vs).mMax = dblMinPos := by
  induction vs generalizing m with
  | nil => simpa [Measurement.addAll] using hmax
  | cons v vs ih =>
    rw [Measurement.addAll_cons]
    refine ih _ ?_ (fun w hw => hlt w (List.mem_cons_of_mem _ hw))
    have hv : v < dblMinPos := hlt v (List.mem_cons_self _ _)
    have hngt : ¬ v > m.mMax := by rw [hmax]; linarith
    simp only [Measurement.AddDataPoint]
    rw [if_neg hngt]
    exact hmax

/-- C10: `mMax` is initialised to `std::numeric_limits<double>::min()` — the
smallest positive normal double `2⁻¹⁰²²`, not the lowest representable
value — so for any non-empty sequence of `AddDataPoint` calls whose values
are all strictly below that sentinel (for example, all negative), `GetMax()`
returns the sentinel rather than the maximum value added. -/
theorem C10_max_sentinel (name : String) (vs : List ℚ) (hne : vs ≠ [])
    (hlt : ∀ v ∈ vs, v < dblMinPos) :
    (Measurement.init name).mMax = dblMinPos ∧
    dblMinPos = 1 / 2 ^ 1022 ∧
    ((Measurement.init name).addAll vs).GetMax = dblMinPos := by
  refine ⟨rfl, rfl, ?_⟩
  exact Measurement.addAll_max_stuck vs _ rfl hlt

/-- Witness for C10 at the concrete input `[-5]` (all values negative). -/
theorem C10_max_sentinel_witness :
    (Measurement.init "cma").mMax = dblMinPos ∧
    dblMinPos = 1 / 2 ^ 1022 ∧
    ((Measurement.init "cma").addAll [-5]).GetMax = dblMinPos :=
  C10_max_sentinel "cma" [-5] (by decide) (by
    intro v hv
    simp only [List.mem_singleton] at hv
    subst hv
    rw [dblMinPos]
    norm_num)

/-! ## Process identity (src/Process.h) -/

/-- The slice of `Process` (src/Process.h) that the statistics engine's
algorithms read: pid, parent pid, full cmdline and the dead flag. -/
structure Process where
  mPid : ℤ
  mPpid : ℤ
  mCmdline : String
  mDead : Bool
  deriving DecidableEq, Repr

/-- `Process::operator==` (src/Process.h): both the pid and the cmdline must
match — "On long captures there is a small chance we loop around PIDs and
re-use the same PID again". -/
def Process.eq (a b : Process) : Bool :=
  a.mPid == b.mPid && a.mCmdline == b.mCmdline

/-- `Process::isDead`. -/
def Process.isDead (p : Process) : Bool := p.mDead

/-- `Process::cmdline`. -/
def Process.cmdline (p : Process) : String := p.mCmdline

/-- `Process::ppid`. -/
def Process.ppid (p : Process) : ℤ := p.mPpid

/-- `Process::pid`. -/
def Process.pid (p : Process) : ℤ := p.mPid

/-- C8: `Process::operator==` holds exactly when both the pid and the cmdline
agree; two identities with the same pid but different cmdline (kernel PID
reuse) always compare unequal. -/
theorem C8_process_identity_eq (a b : Process) :
    (Process.eq a b = true ↔ (a.mPid = b.mPid ∧ a.mCmdline = b.mCmdline)) ∧
    (a.mPid = b.mPid → a.mCmdline ≠ b.mCmdline → Process.eq a b = false) := by
  constructor
  · simp [Process.eq]
  · intro hp hc
    simp [Process.eq, hp, hc]

/-- Witness for C8: two concrete identities sharing pid 100 but with
different cmdlines compare unequal. -/
theorem C8_process_identity_eq_witness :
    Process.eq ⟨100, 1, "/bin/foo", true⟩ ⟨100, 2, "/bin/bar", false⟩ = false :=
  (C8_process_identity_eq ⟨100, 1, "/bin/foo", true⟩ ⟨100, 2, "/bin/bar", false⟩).2
    rfl (by decide)

/-! ## MemInfo (src/FileParsers/MemInfo.cpp) -/

/-- One line of the memory-info pseudo-file, already split into the field
name (without the colon) and the numeric kB value that the `sscanf` format
strings `"<Key>: %ld kB"` extract. -/
structure MemInfoLine where
  key : String
  value : ℤ
  deriving DecidableEq, Repr

/-- The fields of `MemInfo` (src/FileParsers/MemInfo.h), all `long`. -/
structure MemInfoData where
  mTotal : ℤ
  mFree : ℤ
  mAvailable : ℤ
  mUsed : ℤ
  mBuffers : ℤ
  mCached : ℤ
  mSlab : ℤ
  mSReclaimable : ℤ
  mSUnreclaimable : ℤ
  mSwapTotal : ℤ
  mSwapFree : ℤ
  mCmaTotal : ℤ
  mCmaFree : ℤ
  deriving DecidableEq, Repr

/-- `MemInfo::MemInfo()`'s member initialiser list: everything zero. -/
def MemInfoData.init : MemInfoData := ⟨0, 0, 0, 0, 0, 0, 0, 0, 0, 0, 0, 0, 0⟩

/-- One iteration of `parseMemInfo`'s line loop: the `sscanf` if/else-if
dispatch chain (src/FileParsers/MemInfo.cpp).  `CmaFree` has no branch in
the source and is therefore never assigned. -/
def scanMemInfoLine (s : MemInfoData) (l : MemInfoLine) : MemInfoData :=
  if l.key = "MemTotal" then { s with mTotal := l.value }
  else if l.key = "MemFree" then { s with mFree := l.value }
  else if l.key = "MemAvailable" then { s with mAvailable := l.value }
  else if l.key = "Buffers" then { s with mBuffers := l.value }
  else if l.key = "Cached" then { s with mCached := l.value }
  else if l.key = "Slab" then { s with mSlab := l.value }
  else if l.key = "SReclaimable" then { s with mSReclaimable := l.value }
  else if l.key = "SUnreclaim" then { s with mSUnreclaimable := l.value }
  else if l.key = "SwapTotal" then { s with mSwapTotal := l.value }
  else if l.key = "SwapFree" then { s with mSwapFree := l.value }
  else if l.key = "CmaTotal" then { s with mCmaTotal := l.value }
  else s

/-- `MemInfo::parseMemInfo` on an already-read list of lines: scan every
line, then either return early on the corrupt-read guard
`mTotal < mFree + mBuffers + mCached + mSlab` (leaving `mUsed` untouched, but
NOT resetting the already-assigned fields) or derive
`mUsed = mTotal - (mFree + mBuffers + mCached + mSReclaimable)`. -/
def parseMemInfo (lines : List MemInfoLine) : MemInfoData :=
  let s := lines.foldl scanMemInfoLine MemInfoData.init
  if s.mTotal < s.mFree + s.mBuffers + s.mCached + s.mSlab then s
  else { s with mUsed := s.mTotal - (s.mFree + s.mBuffers + s.mCached + s.mSReclaimable) }

/-- The synthetic memory-info file from the specification's test vector. -/
def demoMemInfoLines : List MemInfoLine :=
  [⟨"MemTotal", 1000⟩, ⟨"MemFree", 200⟩, ⟨"Buffers", 50⟩, ⟨"Cached", 100⟩, ⟨"Slab", 0⟩]

/-- A corrupt memory-info file: `MemTotal` smaller than the sum the guard
checks, with `MemFree` already parsed before the guard runs. -/
def corruptMemInfoLines : List MemInfoLine :=
  [⟨"MemTotal", 100⟩, ⟨"MemFree", 200⟩]

/-- C6: when the parsed values satisfy
`MemFree + Buffers + Cached + Slab ≤ MemTotal`, the derived used value is
`MemTotal - (MemFree + Buffers + Cached + SReclaimable)`; on the spec's
synthetic file (`MemTotal` 1000, `MemFree` 200, `Buffers` 50, `Cached` 100,
`Slab` 0) `MemUsedKb()` is 650. -/
theorem C6_meminfo_used (lines : List MemInfoLine)
    (hguard : (parseMemInfo lines).mFree + (parseMemInfo lines).mBuffers +
        (parseMemInfo lines).mCached + (parseMemInfo lines).mSlab ≤
        (parseMemInfo lines).mTotal) :
    (parseMemInfo lines).mUsed =
      (parseMemInfo lines).mTotal -
        ((parseMemInfo lines).mFree + (parseMemInfo lines).mBuffers +
         (parseMemInfo lines).mCached + (parseMemInfo lines).mSReclaimable) ∧
    (parseMemInfo demoMemInfoLines).mUsed = 650 := by
  refine ⟨?_, by decide⟩
  revert hguard
  unfold parseMemInfo
  obtain ⟨t, f, av, u, b, c, sl, sr, su, st, sf, ct, cf⟩ :=
    lines.foldl scanMemInfoLine MemInfoData.init
  by_cases hc : t < f + b + c + sl
  · rw [if_pos hc]
    intro hguard
    exact absurd hguard (by simpa using hc)
  · rw [if_neg hc]
    intro _
    rfl

/-- Witness for C6 at the spec's synthetic memory-info file. -/
theorem C6_meminfo_used_witness :
    (parseMemInfo demoMemInfoLines).mUsed =
      (parseMemInfo demoMemInfoLines).mTotal -
        ((parseMemInfo demoMemInfoLines).mFree + (parseMemInfo demoMemInfoLines).mBuffers +
         (parseMemInfo demoMemInfoLines).mCached + (parseMemInfo demoMemInfoLines).mSReclaimable) ∧
    (parseMemInfo demoMemInfoLines).mUsed = 650 :=
  C6_meminfo_used demoMemInfoLines (by decide)

/-- C7 counterexample: on a corrupt file where the guard
`mTotal < mFree + mBuffers + mCached + mSlab` fires, the constructed object
is NOT left with every field at its zero default — `mFree` keeps the already
parsed value 200. -/
theorem C7_defaulted_counterexample :
    ((parseMemInfo corruptMemInfoLines).mTotal <
       (parseMemInfo corruptMemInfoLines).mFree + (parseMemInfo corruptMemInfoLines).mBuffers +
       (parseMemInfo corruptMemInfoLines).mCached + (parseMemInfo corruptMemInfoLines).mSlab) ∧
    (parseMemInfo corruptMemInfoLines).mFree = 200 ∧
    parseMemInfo corruptMemInfoLines ≠ MemInfoData.init := by decide

/-- A single scan step never assigns `mUsed`. -/
theorem scanMemInfoLine_used (s : MemInfoData) (l : MemInfoLine) :
    (scanMemInfoLine s l).mUsed = s.mUsed := by
  simp only [scanMemInfoLine, apply_ite MemInfoData.mUsed, ite_self]

/-- The scan loop never assigns `mUsed`. -/
theorem scan_meminfo_used (lines : List MemInfoLine) (s : MemInfoData) :
    (lines.foldl scanMemInfoLine s).mUsed = s.mUsed := by
  induction lines generalizing s with
  | nil => rfl
  | cons l ls ih =>
    rw [List.foldl_cons, ih, scanMemInfoLine_used]

/-- C7 amended: when the guard `mTotal < mFree + mBuffers + mCached + mSlab`
fires, `parseMemInfo` logs and returns early, so `mUsed` is left at its zero
default while the other fields keep the values already parsed (the result is
exactly the scanned state, not a fully defaulted object). -/
theorem C7_guard_skips_used (lines : List MemInfoLine)
    (hbad : (parseMemInfo lines).mTotal <
        (parseMemInfo lines).mFree + (parseMemInfo lines).mBuffers +
        (parseMemInfo lines).mCached + (parseMemInfo lines).mSlab) :
    (parseMemInfo lines).mUsed = 0 ∧
    parseMemInfo lines = lines.foldl scanMemInfoLine MemInfoData.init := by
  have husd : (lines.foldl scanMemInfoLine MemInfoData.init).mUsed = 0 :=
    scan_meminfo_used lines MemInfoData.init
  revert hbad husd
  unfold parseMemInfo
  obtain ⟨t, f, av, u, b, c, sl, sr, su, st, sf, ct, cf⟩ :=
    lines.foldl scanMemInfoLine MemInfoData.init
  by_cases hc : t < f + b + c + sl
  · rw [if_pos hc]
    intro _ husd
    exact ⟨husd, rfl⟩
  · rw [if_neg hc]
    intro hbad _
    exact absurd hbad (by simpa using hc)

/-- Witness for the amended C7 at the corrupt concrete file. -/
theorem C7_guard_skips_used_witness :
    (parseMemInfo corruptMemInfoLines).mUsed = 0 ∧
    parseMemInfo corruptMemInfoLines =
      corruptMemInfoLines.foldl scanMemInfoLine MemInfoData.init :=
  C7_guard_skips_used corruptMemInfoLines (by decide)

/-! ## Smaps (src/FileParsers/Smaps.cpp) -/

/-- `Smaps::SmapsField`. -/
inductive SmapsField where
  | Pss | Rss | Swap | SwapPss | Locked | PrivateClean | PrivateDirty | Size | Ignore
  deriving DecidableEq, Repr

/-- A smaps line as classified by `Smaps::parseSmapsLine`: the recognised
field tag together with the parsed integer value (unknown keys map to
`Ignore`). -/
structure SmapsLine where
  fieldTag : SmapsField
  value : ℤ
  deriving DecidableEq, Repr

/-- The accumulator fields of `Smaps` (src/FileParsers/Smaps.h), all `long`. -/
structure SmapsData where
  mRss : ℤ
  mPss : ℤ
  mSwap : ℤ
  mSwapPss : ℤ
  mLocked : ℤ
  mPrivateClean : ℤ
  mPrivateDirty : ℤ
  mSize : ℤ
  deriving DecidableEq, Repr

/-- `Smaps::Smaps` member initialisers: everything zero. -/
def SmapsData.init : SmapsData := ⟨0, 0, 0, 0, 0, 0, 0, 0⟩

/-- `Smaps::Pss()`. -/
def SmapsData.Pss (s : SmapsData) : ℤ := s.mPss

/-- `Smaps::Rss()`. -/
def SmapsData.Rss (s : SmapsData) : ℤ := s.mRss

/-- `Smaps::Swap()`. -/
def SmapsData.Swap (s : SmapsData) : ℤ := s.mSwap

/-- One iteration of `Smaps::parseSmaps`' loop: `+=` the classified value
into the matching accumulator. -/
def smapsAddLine (s : SmapsData) (l : SmapsLine) : SmapsData :=
  match l.fieldTag with
  | .Pss => { s with mPss := s.mPss + l.value }
  | .Rss => { s with mRss := s.mRss + l.value }
  | .Swap => { s with mSwap := s.mSwap + l.value }
  | .SwapPss => { s with mSwapPss := s.mSwapPss + l.value }
  | .Locked => { s with mLocked := s.mLocked + l.value }
  | .PrivateClean => { s with mPrivateClean := s.mPrivateClean + l.value }
  | .PrivateDirty => { s with mPrivateDirty := s.mPrivateDirty + l.value }
  | .Size => { s with mSize := s.mSize + l.value }
  | .Ignore => s

/-- One iteration of `Smaps::parseSmapsRollup`'s loop: `=` (overwrite) the
classified value. -/
def smapsSetLine (s : SmapsData) (l : SmapsLine) : SmapsData :=
  match l.fieldTag with
  | .Pss => { s with mPss := l.value }
  | .Rss => { s with mRss := l.value }
  | .Swap => { s with mSwap := l.value }
  | .SwapPss => { s with mSwapPss := l.value }
  | .Locked => { s with mLocked := l.value }
  | .PrivateClean => { s with mPrivateClean := l.value }
  | .PrivateDirty => { s with mPrivateDirty := l.value }
  | .Size => { s with mSize := l.value }
  | .Ignore => s

/-- `Smaps::parseSmaps` over the classified lines of the full per-mapping
file. -/
def parseSmaps (lines : List SmapsLine) : SmapsData :=
  lines.foldl smapsAddLine SmapsData.init

/-- `Smaps::parseSmapsRollup` over the classified lines of the rollup
file. -/
def parseSmapsRollup (lines : List SmapsLine) : SmapsData :=
  lines.foldl smapsSetLine SmapsData.init

/-- The total value a given field carries across a list of lines. -/
def sumField (f : SmapsField) (lines : List SmapsLine) : ℤ :=
  ((lines.filter (fun l => l.fieldTag = f)).map SmapsLine.value).sum

/-- A rollup file whose `Pss`/`Rss`/`Swap` lines carry exactly the per-field
sums of the given per-mapping blocks. -/
def mkRollup (blocks : List (List SmapsLine)) : List SmapsLine :=
  [⟨.Pss, sumField .Pss blocks.flatten⟩,
   ⟨.Rss, sumField .Rss blocks.flatten⟩,
   ⟨.Swap, sumField .Swap blocks.flatten⟩]

theorem smapsAddLine_pss (s : SmapsData) (l : SmapsLine) :
    (smapsAddLine s l).mPss = s.mPss + (if l.fieldTag = SmapsField.Pss then l.value else 0) := by
  cases l with
  | mk f v => cases f <;> simp [smapsAddLine]

theorem smapsAddLine_rss (s : SmapsData) (l : SmapsLine) :
    (smapsAddLine s l).mRss = s.mRss + (if l.fieldTag = SmapsField.Rss then l.value else 0) := by
  cases l with
  | mk f v => cases f <;> simp [smapsAddLine]

theorem smapsAddLine_swap (s : SmapsData) (l : SmapsLine) :
    (smapsAddLine s l).mSwap = s.mSwap + (if l.fieldTag = SmapsField.Swap then l.value else 0) := by
  cases l with
  | mk f v => cases f <;> simp [smapsAddLine]

theorem sumField_cons (f : SmapsField) (l : SmapsLine) (ls : List SmapsLine) :
    sumField f (l :: ls) = (if l.fieldTag = f then l.value else 0) + sumField f ls := by
  by_cases h : l.fieldTag = f <;> simp [sumField, List.filter_cons, h]

theorem foldl_smapsAddLine_pss (lines : List SmapsLine) (s : SmapsData) :
    (lines.foldl smapsAddLine s).mPss = s.mPss + sumField SmapsField.Pss lines := by
  induction lines generalizing s with
  | nil => simp [sumField]
  | cons l ls ih =>
    rw [List.foldl_cons, ih, smapsAddLine_pss, sumField_cons]
    ring

theorem foldl_smapsAddLine_rss (lines : List SmapsLine) (s : SmapsData) :
    (lines.foldl smapsAddLine s).mRss = s.mRss + sumField SmapsField.Rss lines := by
  induction lines generalizing s with
  | nil => simp [sumField]
  | cons l ls ih =>
    rw [List.foldl_cons, ih, smapsAddLine_rss, sumField_cons]
    ring

theorem foldl_smapsAddLine_swap (lines : List SmapsLine) (s : SmapsData) :
    (lines.foldl smapsAddLine s).mSwap = s.mSwap + sumField SmapsField.Swap lines := by
  induction lines generalizing s with
  | nil => simp [sumField]
  | cons l ls ih =>
    rw [List.foldl_cons, ih, smapsAddLine_swap, sumField_cons]
    ring

/-- C5: for any set of per-mapping smaps blocks, parsing the concatenated
full file through `parseSmaps` and parsing a rollup file whose
`Pss`/`Rss`/`Swap` lines carry exactly the per-field sums of those blocks
through `parseSmapsRollup` yield the same `Pss()`, `Rss()` and `Swap()`. -/
theorem C5_rollup_matches_full (blocks : List (List SmapsLine)) :
    (parseSmaps blocks.flatten).Pss = (parseSmapsRollup (mkRollup blocks)).Pss ∧
    (parseSmaps blocks.flatten).Rss = (parseSmapsRollup (mkRollup blocks)).Rss ∧
    (parseSmaps blocks.flatten).Swap = (parseSmapsRollup (mkRollup blocks)).Swap := by
  refine ⟨?_, ?_, ?_⟩
  · rw [show (parseSmapsRollup (mkRollup blocks)).Pss = sumField SmapsField.Pss blocks.flatten from rfl]
    rw [SmapsData.Pss, parseSmaps, foldl_smapsAddLine_pss]
    simp [SmapsData.init]
  · rw [show (parseSmapsRollup (mkRollup blocks)).Rss = sumField SmapsField.Rss blocks.flatten from rfl]
    rw [SmapsData.Rss, parseSmaps, foldl_smapsAddLine_rss]
    simp [SmapsData.init]
  · rw [show (parseSmapsRollup (mkRollup blocks)).Swap = sumField SmapsField.Swap blocks.flatten from rfl]
    rw [SmapsData.Swap, parseSmaps, foldl_smapsAddLine_swap]
    simp [SmapsData.init]

/-! ## Memory fragmentation (src/MemoryMetric.cpp, `CalculateFragmentation`) -/

/-- The platform enumeration used to pick the expected buddyinfo column
count. -/
inductive Platform where
  | AMLOGIC | REALTEK | BROADCOM
  deriving DecidableEq, Repr

/-- The platform-expected buddyinfo column count selected in
`CalculateFragmentation`. -/
def columnCount : Platform → ℕ
  | .AMLOGIC => 15
  | .REALTEK => 17
  | .BROADCOM => 15

/-- One whitespace-tokenized line of `/proc/buddyinfo`: four header columns
(`Node <n>, zone <name>`) followed by the per-order free-block counts
(columns 4 onwards). -/
structure BuddyLine where
  zoneName : String
  counts : List ℕ
  deriving DecidableEq, Repr

/-- `Σ_k 2^(j+k) · l[k]` — the shape of both accumulation loops of
`CalculateFragmentation` (the `totalFreePages` loop starts at order 0; the
inner `fragPercentage` loop starts at order `i`). -/
def weightedSumFrom (j : ℕ) : List ℕ → ℕ
  | [] => 0
  | c :: rest => 2 ^ j * c + weightedSumFrom (j + 1) rest

/-- `totalFreePages`: `Σ 2^order · freeCount[order]` over all orders. -/
def totalFreePages (counts : List ℕ) : ℕ := weightedSumFrom 0 counts

/-- The inner loop of `CalculateFragmentation`:
`Σ_{j ≥ i} 2^j · freePages[j]`. -/
def fragSum (counts : List ℕ) (i : ℕ) : ℕ := weightedSumFrom i (counts.drop i)

/-- `fragPercentage = (totalFreePages − Σ_{j≥i} 2^j·c_j) / totalFreePages`
in exact arithmetic (the code computes it in `double`). -/
def fragPercentage (counts : List ℕ) (i : ℕ) : ℚ :=
  ((totalFreePages counts : ℚ) - (fragSum counts i : ℚ)) / (totalFreePages counts : ℚ)

/-- The `fragmentationPercent` map: one entry per order `0 ≤ i < #orders`. -/
def fragList (counts : List ℕ) : List ℚ :=
  (List.range counts.length).map (fragPercentage counts)

/-- The per-zone-line column-count guard plus fragmentation computation of
`CalculateFragmentation`; `none` models the warning-and-skip branch. -/
def processBuddyLine (p : Platform) (line : BuddyLine) : Option (List ℚ) :=
  if 4 + line.counts.length = columnCount p then some (fragList line.counts) else none

theorem weightedSumFrom_eq (l : List ℕ) (j : ℕ) :
    weightedSumFrom j l = ∑ k in Finset.range l.length, 2 ^ (j + k) * l.getD k 0 := by
  induction l generalizing j with
  | nil => simp [weightedSumFrom]
  | cons c rest ih =>
    rw [weightedSumFrom, ih (j + 1), List.length_cons, Finset.sum_range_succ']
    have h1 : ∀ k ∈ Finset.range rest.length,
        2 ^ (j + 1 + k) * rest.getD k 0 = 2 ^ (j + (k + 1)) * (c :: rest).getD (k + 1) 0 := by
      intro k _
      rw [List.getD_cons_succ]
      congr 2
      omega
    rw [Finset.sum_congr rfl h1]
    simp [List.getD_cons_zero]
    ring

theorem fragSum_eq (counts : List ℕ) (i : ℕ) :
    fragSum counts i = ∑ j in Finset.Ico i counts.length, 2 ^ j * counts.getD j 0 := by
  rw [fragSum, weightedSumFrom_eq, Finset.sum_Ico_eq_sum_range, List.length_drop]
  apply Finset.sum_congr rfl
  intro k _
  congr 1
  rw [List.getD_eq_getElem?_getD, List.getD_eq_getElem?_getD, List.getElem?_drop]

theorem totalFreePages_eq_fragSum_zero (counts : List ℕ) :
    totalFreePages counts = fragSum counts 0 := rfl

theorem fragSum_le_total (counts : List ℕ) (i : ℕ) :
    fragSum counts i ≤ totalFreePages counts := by
  rw [fragSum_eq, totalFreePages_eq_fragSum_zero, fragSum_eq]
  apply Finset.sum_le_sum_of_subset
  exact Finset.Ico_subset_Ico (Nat.zero_le i) le_rfl

theorem fragList_getD (counts : List ℕ) (i : ℕ) (h : i < counts.length) :
    (fragList counts).getD i 0 = fragPercentage counts i := by
  rw [fragList, List.getD_eq_getElem?_getD, List.getElem?_map, List.getElem?_range h]
  rfl

/-- C1: on a buddyinfo zone line whose column count matches the platform
expectation and whose total free pages are positive, the computed
fragmentation at every order `i` is
`(T − Σ_{j≥i} 2^j·c_j) / T` with `T = Σ_j 2^j·c_j`; fragmentation at order 0
is 0, and on the synthetic counts `[100, 50, 10, 0]` (T = 240) the
fragmentation at order 3 is 1. -/
theorem C1_fragmentation_formula (p : Platform) (line : BuddyLine)
    (hcols : 4 + line.counts.length = columnCount p)
    (hT : 0 < totalFreePages line.counts) :
    processBuddyLine p line = some (fragList line.counts) ∧
    (∀ i, i < line.counts.length →
      (fragList line.counts).getD i 0 =
        ((totalFreePages line.counts : ℚ) -
          ∑ j in Finset.Ico i line.counts.length,
            (2 : ℚ) ^ j * (line.counts.getD j 0 : ℚ)) /
          (totalFreePages line.counts : ℚ)) ∧
    (0 < line.counts.length → (fragList line.counts).getD 0 0 = 0) ∧
    (fragList [100, 50, 10, 0]).getD 3 0 = 1 ∧
    (fragList [100, 50, 10, 0]).getD 0 0 = 0 := by
  refine ⟨by rw [processBuddyLine, if_pos hcols], ?_, ?_, ?_, ?_⟩
  · intro i hi
    rw [fragList_getD _ _ hi, fragPercentage, fragSum_eq]
    push_cast
    rfl
  · intro hlen
    rw [fragList_getD _ _ hlen, fragPercentage, ← totalFreePages_eq_fragSum_zero]
    simp
  · rw [fragList_getD _ 3 (by norm_num), fragPercentage]
    norm_num [totalFreePages, weightedSumFrom, fragSum]
  · rw [fragList_getD _ 0 (by norm_num), fragPercentage, ← totalFreePages_eq_fragSum_zero]
    simp

/-- Witness for C1: an AMLOGIC-shaped line (15 columns) carrying the spec's
synthetic counts padded with zero higher orders. -/
theorem C1_fragmentation_formula_witness :
    processBuddyLine Platform.AMLOGIC ⟨"Normal", [100, 50, 10, 0, 0, 0, 0, 0, 0, 0, 0]⟩ =
      some (fragList [100, 50, 10, 0, 0, 0, 0, 0, 0, 0, 0]) ∧
    (∀ i, i < ([100, 50, 10, 0, 0, 0, 0, 0, 0, 0, 0] : List ℕ).length →
      (fragList [100, 50, 10, 0, 0, 0, 0, 0, 0, 0, 0]).getD i 0 =
        ((totalFreePages [100, 50, 10, 0, 0, 0, 0, 0, 0, 0, 0] : ℚ) -
          ∑ j in Finset.Ico i ([100, 50, 10, 0, 0, 0, 0, 0, 0, 0, 0] : List ℕ).length,
            (2 : ℚ) ^ j * (([100, 50, 10, 0, 0, 0, 0, 0, 0, 0, 0] : List ℕ).getD j 0 : ℚ)) /
          (totalFreePages [100, 50, 10, 0, 0, 0, 0, 0, 0, 0, 0] : ℚ)) ∧
    (0 < ([100, 50, 10, 0, 0, 0, 0, 0, 0, 0, 0] : List ℕ).length →
      (fragList [100, 50, 10, 0, 0, 0, 0, 0, 0, 0, 0]).getD 0 0 = 0) ∧
    (fragList [100, 50, 10, 0]).getD 3 0 = 1 ∧
    (fragList [100, 50, 10, 0]).getD 0 0 = 0 :=
  C1_fragmentation_formula Platform.AMLOGIC ⟨"Normal", [100, 50, 10, 0, 0, 0, 0, 0, 0, 0, 0]⟩
    (by decide) (by decide)

/-! ### The per-zone measurement update of `CalculateFragmentation` (C9) -/

/-- The `memoryFragmentation` struct: one `FreePages` and one
`Fragmentation` measurement per buddy order. -/
structure memoryFragmentation where
  FreePages : Measurement
  Fragmentation : Measurement
  deriving DecidableEq, Repr

/-- Default used when indexing out of range (never hit: the code keeps the
vector length equal to the order count of the zone). -/
def memoryFragmentation.dflt : memoryFragmentation :=
  ⟨Measurement.init "FreePages", Measurement.init "Fragmentation"⟩

/-- First observation of a zone (the `else` branch of the measurement update
in `CalculateFragmentation`): fresh `Measurement`s, the fragmentation data
point being the RAW fraction `fragmentationPercent[i]`. -/
def initZoneMeasurements (counts : List ℕ) : List memoryFragmentation :=
  (List.range counts.length).map (fun i =>
    ⟨(Measurement.init "FreePages").AddDataPoint ((counts.getD i 0 : ℚ)),
     (Measurement.init "Fragmentation").AddDataPoint (fragPercentage counts i)⟩)

/-- Subsequent observation of a zone (the `then` branch): data points added
to the existing measurements, the fragmentation data point being
`fragmentationPercent[i] * 100`. -/
def updateZoneMeasurements (ms : List memoryFragmentation) (counts : List ℕ) :
    List memoryFragmentation :=
  (List.range counts.length).map (fun i =>
    let m := ms.getD i memoryFragmentation.dflt
    ⟨m.FreePages.AddDataPoint ((counts.getD i 0 : ℚ)),
     m.Fragmentation.AddDataPoint (fragPercentage counts i * 100)⟩)

/-- The zone's entry of `mMemoryFragmentation` after `n` collection ticks
that all observe the same counts for this zone (`none` before the first
tick, i.e. the zone is not yet in the map). -/
def fragZoneTicks (counts : List ℕ) : ℕ → Option (List memoryFragmentation)
  | 0 => none
  | n + 1 =>
    match fragZoneTicks counts n with
    | none => some (initZoneMeasurements counts)
    | some ms => some (updateZoneMeasurements ms counts)

theorem Measurement.AddDataPoint_mMin (m : Measurement) (v : ℚ) :
    (m.AddDataPoint v).mMin = if v < m.mMin then v else m.mMin := rfl

theorem Measurement.AddDataPoint_mMax (m : Measurement) (v : ℚ) :
    (m.AddDataPoint v).mMax = if v > m.mMax then v else m.mMax := rfl

theorem Measurement.addAll_append_singleton (m : Measurement) (l : List ℚ) (v : ℚ) :
    m.addAll (l ++ [v]) = (m.addAll l).AddDataPoint v := by
  rw [Measurement.addAll, List.foldl_append]
  rfl

theorem getD_map_range {α : Type} (n i : ℕ) (g : ℕ → α) (d : α) (h : i < n) :
    ((List.range n).map g).getD i d = g i := by
  rw [List.getD_eq_getElem?_getD, List.getElem?_map, List.getElem?_range h]
  rfl

/-- After `n + 1` same-counts ticks, the order-`i` entry of the zone is
exactly the fold of the data points `[c_i, c_i, …]` for `FreePages` and
`[f, 100·f, …, 100·f]` for `Fragmentation`. -/
theorem fragZoneTicks_entry (counts : List ℕ) (i : ℕ) (hi : i < counts.length) :
    ∀ n, ∃ ms, fragZoneTicks counts (n + 1) = some ms ∧
      ms.getD i memoryFragmentation.dflt =
        ⟨(Measurement.init "FreePages").addAll
            (List.replicate (n + 1) ((counts.getD i 0 : ℚ))),
         (Measurement.init "Fragmentation").addAll
            (fragPercentage counts i :: List.replicate n (fragPercentage counts i * 100))⟩ := by
  intro n
  induction n with
  | zero =>
    refine ⟨initZoneMeasurements counts, rfl, ?_⟩
    rw [initZoneMeasurements, getD_map_range _ _ _ _ hi]
    simp [Measurement.addAll]
  | succ k ih =>
    obtain ⟨ms, hms, hentry⟩ := ih
    refine ⟨updateZoneMeasurements ms counts, ?_, ?_⟩
    · show fragZoneTicks counts (k + 1 + 1) = _
      rw [fragZoneTicks, hms]
    · rw [updateZoneMeasurements, getD_map_range _ _ _ _ hi]
      show (⟨(ms.getD i memoryFragmentation.dflt).FreePages.AddDataPoint _,
             (ms.getD i memoryFragmentation.dflt).Fragmentation.AddDataPoint _⟩ :
             memoryFragmentation) = _
      rw [hentry]
      have h1 : List.replicate (k + 1 + 1) ((counts.getD i 0 : ℚ))
          = List.replicate (k + 1) ((counts.getD i 0 : ℚ)) ++ [(counts.getD i 0 : ℚ)] :=
        List.replicate_succ' _ _
      have h2 : fragPercentage counts i ::
            List.replicate (k + 1) (fragPercentage counts i * 100)
          = (fragPercentage counts i ::
              List.replicate k (fragPercentage counts i * 100)) ++
            [fragPercentage counts i * 100] := by
        rw [List.replicate_succ' _ _]
        rfl
      rw [h1, h2, Measurement.addAll_append_singleton, Measurement.addAll_append_singleton]

/-- Running min/max of `init` followed by the data points
`f, 100·f, …, 100·f` (at least one `100·f`): the min is `f`, the max is
`100·f`, provided `0 < f`, `dblMinPos < f` and `f < dblMax`. -/
theorem frag_measurement_minmax (f : ℚ) (k : ℕ) (hk : 1 ≤ k)
    (h0 : 0 < f) (hlo : dblMinPos < f) (hhi : f < dblMax) :
    ((Measurement.init "Fragmentation").addAll (f :: List.replicate k (f * 100))).mMin = f ∧
    ((Measurement.init "Fragmentation").addAll (f :: List.replicate k (f * 100))).mMax = f * 100 := by
  have hm1min : ((Measurement.init "Fragmentation").AddDataPoint f).mMin = f := by
    rw [Measurement.AddDataPoint_mMin]
    rw [if_pos]
    show f < dblMax
    exact hhi
  have hm1max : ((Measurement.init "Fragmentation").AddDataPoint f).mMax = f := by
    rw [Measurement.AddDataPoint_mMax]
    rw [if_pos]
    show f > dblMinPos
    exact hlo
  induction k with
  | zero => omega
  | succ j ih =>
    cases Nat.eq_zero_or_pos j with
    | inl hj =>
      subst hj
      have hstep : (f :: List.replicate 1 (f * 100))
          = ([f] : List ℚ) ++ [f * 100] := rfl
      rw [hstep, Measurement.addAll_append_singleton]
      have hbase : (Measurement.init "Fragmentation").addAll [f]
          = (Measurement.init "Fragmentation").AddDataPoint f := rfl
      rw [hbase]
      constructor
      · rw [Measurement.AddDataPoint_mMin, hm1min, if_neg (by nlinarith)]
      · rw [Measurement.AddDataPoint_mMax, hm1max, if_pos (by nlinarith)]
    | inr hj =>
      obtain ⟨ihmin, ihmax⟩ := ih hj
      have hstep : (f :: List.replicate (j + 1) (f * 100))
          = (f :: List.replicate j (f * 100)) ++ [f * 100] := by
        rw [List.replicate_succ' _ _]
        rfl
      rw [hstep, Measurement.addAll_append_singleton]
      constructor
      · rw [Measurement.AddDataPoint_mMin, ihmin, if_neg (by nlinarith)]
      · rw [Measurement.AddDataPoint_mMax, ihmax, if_neg (by nlinarith)]

theorem fragPercentage_le_one (counts : List ℕ) (i : ℕ) :
    fragPercentage counts i ≤ 1 := by
  rcases Nat.eq_zero_or_pos (totalFreePages counts) with h | h
  · rw [fragPercentage, h]
    norm_num
  · have hTQ : (0 : ℚ) < (totalFreePages counts : ℚ) := by exact_mod_cast h
    rw [fragPercentage, div_le_one hTQ]
    have : (0 : ℚ) ≤ (fragSum counts i : ℚ) := by positivity
    linarith

theorem fragPercentage_total_pos (counts : List ℕ) (i : ℕ)
    (hf : 0 < fragPercentage counts i) : 0 < totalFreePages counts := by
  rcases Nat.eq_zero_or_pos (totalFreePages counts) with h | h
  · rw [fragPercentage, h] at hf
    norm_num at hf
  · exact h

/-- A positive fragmentation fraction is at least `1 / totalFreePages`;
with the `int`-typed accumulator bounded by `2^31`, it therefore clears the
`mMax` sentinel `dblMinPos = 2⁻¹⁰²²`. -/
theorem fragPercentage_gt_sentinel (counts : List ℕ) (i : ℕ)
    (hf : 0 < fragPercentage counts i)
    (hint : totalFreePages counts ≤ 2 ^ 31) :
    dblMinPos < fragPercentage counts i := by
  have hT : 0 < totalFreePages counts := fragPercentage_total_pos counts i hf
  have hTQ : (0 : ℚ) < (totalFreePages counts : ℚ) := by exact_mod_cast hT
  have hSlt : fragSum counts i < totalFreePages counts := by
    by_contra hge
    push_neg at hge
    have : (totalFreePages counts : ℚ) - (fragSum counts i : ℚ) ≤ 0 := by
      have : (totalFreePages counts : ℚ) ≤ (fragSum counts i : ℚ) := by exact_mod_cast hge
      linarith
    have : fragPercentage counts i ≤ 0 := div_nonpos_of_nonpos_of_nonneg this (le_of_lt hTQ)
    linarith
  have hnum : (1 : ℚ) ≤ (totalFreePages counts : ℚ) - (fragSum counts i : ℚ) := by
    have : fragSum counts i + 1 ≤ totalFreePages counts := hSlt
    have := (Nat.cast_le (α := ℚ)).mpr this
    push_cast at this
    linarith
  have hfrac : (1 : ℚ) / (totalFreePages counts : ℚ) ≤ fragPercentage counts i := by
    rw [fragPercentage]
    exact div_le_div_of_nonneg_right hnum hTQ.le
  have hTb : (totalFreePages counts : ℚ) ≤ (2 : ℚ) ^ 31 := by
    exact_mod_cast hint
  have hpow : (2 : ℚ) ^ 31 < (2 : ℚ) ^ 1022 :=
    pow_lt_pow_right₀ (by norm_num : (1 : ℚ) < 2) (by norm_num : 31 < 1022)
  have hsent : dblMinPos < (1 : ℚ) / (totalFreePages counts : ℚ) := by
    have hlt : (totalFreePages counts : ℚ) < (2 : ℚ) ^ 1022 := lt_of_le_of_lt hTb hpow
    have h2p : (0 : ℚ) < (2 : ℚ) ^ 1022 := pow_pos (by norm_num) 1022
    rw [dblMinPos]
    exact one_div_lt_one_div_of_lt hTQ hlt
  linarith

/-- C9: the first tick that observes a zone records the raw fragmentation
fraction (in `[0, 1]`) while every later tick records the fraction times
100; hence after `n ≥ 2` ticks with the same counts and a positive
fragmentation at order `i`, the accumulated minimum is the raw fraction and
the accumulated maximum is 100 times it — the recorded points are not on a
uniform scale.  (`totalFreePages` is a C `int` in the source, whence the
`2^31` bound.) -/
theorem C9_fragmentation_mixed_scale (counts : List ℕ) (n i : ℕ)
    (hn : 2 ≤ n) (hi : i < counts.length)
    (hint : totalFreePages counts ≤ 2 ^ 31)
    (hf : 0 < fragPercentage counts i) :
    0 ≤ fragPercentage counts i ∧ fragPercentage counts i ≤ 1 ∧
    ∃ ms, fragZoneTicks counts n = some ms ∧
      (ms.getD i memoryFragmentation.dflt).Fragmentation.GetMin = fragPercentage counts i ∧
      (ms.getD i memoryFragmentation.dflt).Fragmentation.GetMax
        = fragPercentage counts i * 100 := by
  obtain ⟨k, rfl⟩ : ∃ k, n = (k + 1) + 1 := ⟨n - 2, by omega⟩
  obtain ⟨ms, hms, hentry⟩ := fragZoneTicks_entry counts i hi (k + 1)
  have hhi : fragPercentage counts i < dblMax := by
    have h1 : fragPercentage counts i ≤ 1 := fragPercentage_le_one counts i
    have h2 : (1 : ℚ) < dblMax := by rw [dblMax]; norm_num
    linarith
  have hlo : dblMinPos < fragPercentage counts i :=
    fragPercentage_gt_sentinel counts i hf hint
  obtain ⟨hmin, hmax⟩ :=
    frag_measurement_minmax (fragPercentage counts i) (k + 1) (by omega) hf hlo hhi
  refine ⟨le_of_lt hf, fragPercentage_le_one counts i, ms, hms, ?_, ?_⟩
  · rw [hentry]
    exact hmin
  · rw [hentry]
    exact hmax

/-- Witness for C9: counts `[2, 1]` (T = 4), order 1 (`f = 1/2`), two
ticks. -/
theorem C9_fragmentation_mixed_scale_witness :
    0 ≤ fragPercentage [2, 1] 1 ∧ fragPercentage [2, 1] 1 ≤ 1 ∧
    ∃ ms, fragZoneTicks [2, 1] 2 = some ms ∧
      (ms.getD 1 memoryFragmentation.dflt).Fragmentation.GetMin = fragPercentage [2, 1] 1 ∧
      (ms.getD 1 memoryFragmentation.dflt).Fragmentation.GetMax
        = fragPercentage [2, 1] 1 * 100 :=
  C9_fragmentation_mixed_scale [2, 1] 2 1 (by norm_num) (by norm_num)
    (by norm_num [totalFreePages, weightedSumFrom])
    (by norm_num [fragPercentage, fragSum, totalFreePages, weightedSumFrom])

/-! ## Process deduplication (src/ProcessMetric.cpp, `DeduplicateData`) -/

/-- The slice of `processMeasurement` (src/ProcessMetric.h) that the
deduplication pass reads: the process identity and the PSS accumulator. -/
structure processMeasurement where
  ProcessInfo : Process
  Pss : Measurement
  deriving DecidableEq, Repr

/-- The `std::count_if` of `DeduplicateData`: how many measurements hold a
dead process with the same cmdline and the same parent pid as `m`. -/
def dupCount (all : List processMeasurement) (m : processMeasurement) : ℕ :=
  (all.filter (fun x => x.ProcessInfo.isDead &&
      (x.ProcessInfo.cmdline == m.ProcessInfo.cmdline) &&
      (x.ProcessInfo.ppid == m.ProcessInfo.ppid))).length

/-- `hasDuplicate`: the count (which includes `m` itself) exceeds 1. -/
def hasDuplicate (all : List processMeasurement) (m : processMeasurement) : Bool :=
  decide (1 < dupCount all m)

/-- The condition under which the first loop of `DeduplicateData` files a
measurement into the duplicates map: dead, and `hasDuplicate`. -/
def isDupB (all : List processMeasurement) (m : processMeasurement) : Bool :=
  m.ProcessInfo.isDead && hasDuplicate all m

/-- Insertion into the per-cmdline bucket map
(`std::map<std::string, std::vector<processMeasurement>>`): append to the
existing bucket of the key, or add a fresh bucket.  Keys stay unique.  The
bucket list is kept in first-insertion order rather than `std::map`'s key
order; the removal loop below commutes across buckets, so the resulting
measurement list is the same. -/
def insertDup (key : String) (m : processMeasurement) :
    List (String × List processMeasurement) → List (String × List processMeasurement)
  | [] => [(key, [m])]
  | (k, v) :: rest =>
    if key = k then (k, v ++ [m]) :: rest
    else (k, v) :: insertDup key m rest

/-- The first loop of `DeduplicateData`: file every dead measurement that
has a (cmdline, ppid) duplicate into the bucket of its cmdline. -/
def buildDuplicates (all : List processMeasurement) :
    List (String × List processMeasurement) :=
  all.foldl
    (fun acc m => if isDupB all m then insertDup m.ProcessInfo.cmdline m acc else acc) []

/-- The sort key of the duplicate-selection `std::sort`:
`Pss.GetAverageRounded()`. -/
def pssKey (m : processMeasurement) : ℤ := m.Pss.GetAverageRounded

/-- The `std::sort` by ascending rounded average PSS.  `std::sort` leaves
the relative order of tied keys unspecified; the theorems below treat
buckets with pairwise distinct keys, on which every conforming order has
the same last element. -/
def sortByPss (l : List processMeasurement) : List processMeasurement :=
  l.insertionSort (fun a b => pssKey a ≤ pssKey b)

/-- One `erase(remove_if(...))` pass: drop every measurement whose
`ProcessInfo` compares `==` to the removed one's. -/
def removeMeasurement (ms : List processMeasurement) (r : processMeasurement) :
    List processMeasurement :=
  ms.filter (fun m => !(Process.eq m.ProcessInfo r.ProcessInfo))

/-- `ProcessMetric::DeduplicateData`: build the duplicates map over the dead
measurements, then, bucket by bucket, sort ascending by rounded average PSS,
`pop_back()` (i.e. keep) the highest and remove the remaining ones from the
measurement list. -/
def DeduplicateData (all : List processMeasurement) : List processMeasurement :=
  (buildDuplicates all).foldl
    (fun acc kv => ((sortByPss kv.2).dropLast).foldl removeMeasurement acc) all

theorem Process.eq_self (p : Process) : Process.eq p p = true := by
  simp [Process.eq]

theorem Process.eq_true_iff (a b : Process) :
    Process.eq a b = true ↔ (a.mPid = b.mPid ∧ a.mCmdline = b.mCmdline) := by
  simp [Process.eq]

theorem Process.eq_comm (a b : Process) : Process.eq a b = Process.eq b a := by
  rw [Bool.eq_iff_iff]
  simp only [Process.eq, Bool.and_eq_true, beq_iff_eq]
  constructor
  · rintro ⟨h1, h2⟩
    exact ⟨h1.symm, h2.symm⟩
  · rintro ⟨h1, h2⟩
    exact ⟨h1.symm, h2.symm⟩

/-- Bucket lookup by key (first match), defaulting to the empty bucket. -/
def lookupB (bs : List (String × List processMeasurement)) (k : String) :
    List processMeasurement :=
  match bs with
  | [] => []
  | (k', v) :: rest => if k = k' then v else lookupB rest k

theorem lookupB_insertDup_same (bs : List (String × List processMeasurement))
    (k : String) (m : processMeasurement) :
    lookupB (insertDup k m bs) k = lookupB bs k ++ [m] := by
  induction bs with
  | nil => simp [insertDup, lookupB]
  | cons kv rest ih =>
    obtain ⟨k', v⟩ := kv
    by_cases h : k = k'
    · subst h
      simp [insertDup, lookupB]
    · rw [insertDup, if_neg h, lookupB, if_neg h, lookupB, if_neg h]
      exact ih

theorem lookupB_insertDup_other (bs : List (String × List processMeasurement))
    (k k' : String) (m : processMeasurement) (hne : k' ≠ k) :
    lookupB (insertDup k m bs) k' = lookupB bs k' := by
  induction bs with
  | nil => simp [insertDup, lookupB, hne]
  | cons kv rest ih =>
    obtain ⟨k0, v⟩ := kv
    by_cases h : k = k0
    · subst h
      rw [insertDup, if_pos rfl, lookupB, if_neg hne, lookupB, if_neg hne]
    · rw [insertDup, if_neg h, lookupB, lookupB]
      by_cases h' : k' = k0
      · rw [if_pos h', if_pos h']
      · rw [if_neg h', if_neg h']
        exact ih

theorem insertDup_keys (bs : List (String × List processMeasurement))
    (k : String) (m : processMeasurement) :
    (insertDup k m bs).map Prod.fst =
      if k ∈ bs.map Prod.fst then bs.map Prod.fst else bs.map Prod.fst ++ [k] := by
  induction bs with
  | nil => simp [insertDup]
  | cons kv rest ih =>
    obtain ⟨k0, v⟩ := kv
    by_cases h : k = k0
    · subst h
      simp [insertDup]
    · rw [insertDup, if_neg h]
      simp only [List.map_cons, List.mem_cons]
      rw [ih]
      by_cases hmem : k ∈ rest.map Prod.fst
      · rw [if_pos hmem, if_pos (Or.inr hmem)]
      · rw [if_neg hmem, if_neg (by
          intro hor
          rcases hor with h1 | h2
          · exact h h1
          · exact hmem h2)]
        simp

theorem insertDup_keys_nodup (bs : List (String × List processMeasurement))
    (k : String) (m : processMeasurement) (h : (bs.map Prod.fst).Nodup) :
    ((insertDup k m bs).map Prod.fst).Nodup := by
  rw [insertDup_keys]
  by_cases hmem : k ∈ bs.map Prod.fst
  · rwa [if_pos hmem]
  · rw [if_neg hmem]
    simp [List.nodup_append, h, hmem]

theorem lookupB_of_mem (bs : List (String × List processMeasurement))
    (k : String) (v : List processMeasurement)
    (hnd : (bs.map Prod.fst).Nodup) (hmem : (k, v) ∈ bs) :
    lookupB bs k = v := by
  induction bs with
  | nil => simp at hmem
  | cons kv rest ih =>
    obtain ⟨k0, v0⟩ := kv
    rcases List.mem_cons.mp hmem with h | h
    · cases h
      rw [lookupB, if_pos rfl]
    · have hk : k ≠ k0 := by
        intro hkk
        subst hkk
        have : k ∈ rest.map Prod.fst := List.mem_map.mpr ⟨(k, v), h, rfl⟩
        simp only [List.map_cons, List.nodup_cons] at hnd
        exact hnd.1 this
      rw [lookupB, if_neg hk]
      exact ih (by simp only [List.map_cons, List.nodup_cons] at hnd; exact hnd.2) h

theorem lookupB_mem_of_ne_nil (bs : List (String × List processMeasurement))
    (k : String) (h : lookupB bs k ≠ []) : (k, lookupB bs k) ∈ bs := by
  induction bs with
  | nil => simp [lookupB] at h
  | cons kv rest ih =>
    obtain ⟨k0, v0⟩ := kv
    by_cases hk : k = k0
    · subst hk
      rw [lookupB, if_pos rfl]
      exact List.mem_cons_self _ _
    · rw [lookupB, if_neg hk] at h ⊢
      exact List.mem_cons_of_mem _ (ih h)

/-- The dead-with-duplicate measurements carrying a given cmdline, in
measurement-list order — the content the first loop files under that
cmdline. -/
def dupOf (all : List processMeasurement) (k : String) : List processMeasurement :=
  all.filter (fun m => isDupB all m && (m.ProcessInfo.cmdline == k))

theorem buildDup_fold_lookup (all : List processMeasurement) (ms : List processMeasurement)
    (acc : List (String × List processMeasurement)) (k : String) :
    lookupB
      (ms.foldl
        (fun acc m => if isDupB all m then insertDup m.ProcessInfo.cmdline m acc else acc) acc)
      k
      = lookupB acc k ++ ms.filter (fun m => isDupB all m && (m.ProcessInfo.cmdline == k)) := by
  induction ms generalizing acc with
  | nil => simp
  | cons m ms ih =>
    rw [List.foldl_cons]
    by_cases hd : isDupB all m
    · rw [if_pos hd, ih]
      by_cases hk : k = m.ProcessInfo.cmdline
      · subst hk
        rw [lookupB_insertDup_same]
        rw [List.filter_cons_of_pos (by simp [hd])]
        simp
      · rw [lookupB_insertDup_other _ _ _ _ hk]
        rw [List.filter_cons_of_neg (by simp [hd]; intro hc; exact hk (by rw [hc]))]
    · rw [if_neg hd, ih]
      rw [List.filter_cons_of_neg (by simp [hd])]

theorem buildDup_keys_nodup (all : List processMeasurement) :
    ((buildDuplicates all).map Prod.fst).Nodup := by
  rw [buildDuplicates]
  have : ∀ (ms : List processMeasurement) (acc : List (String × List processMeasurement)),
      (acc.map Prod.fst).Nodup →
      ((ms.foldl
        (fun acc m => if isDupB all m then insertDup m.ProcessInfo.cmdline m acc else acc)
        acc).map Prod.fst).Nodup := by
    intro ms
    induction ms with
    | nil => intro acc h; exact h
    | cons m ms ih =>
      intro acc h
      rw [List.foldl_cons]
      by_cases hd : isDupB all m
      · rw [if_pos hd]
        exact ih _ (insertDup_keys_nodup _ _ _ h)
      · rw [if_neg hd]
        exact ih _ h
  exact this all [] (by simp)

theorem lookupB_buildDuplicates (all : List processMeasurement) (k : String) :
    lookupB (buildDuplicates all) k = dupOf all k := by
  have := buildDup_fold_lookup all all [] k
  rw [buildDuplicates, dupOf]
  rw [this]
  rfl

theorem bucket_eq_dupOf (all : List processMeasurement) (k : String)
    (v : List processMeasurement) (hmem : (k, v) ∈ buildDuplicates all) :
    v = dupOf all k := by
  rw [← lookupB_of_mem _ _ _ (buildDup_keys_nodup all) hmem, lookupB_buildDuplicates]

theorem dupOf_bucket_mem (all : List processMeasurement) (k : String)
    (h : dupOf all k ≠ []) : (k, dupOf all k) ∈ buildDuplicates all := by
  rw [← lookupB_buildDuplicates] at h ⊢
  exact lookupB_mem_of_ne_nil _ _ h

theorem mem_dupOf_iff (all : List processMeasurement) (k : String)
    (x : processMeasurement) :
    x ∈ dupOf all k ↔ x ∈ all ∧ isDupB all x = true ∧ x.ProcessInfo.cmdline = k := by
  simp only [dupOf, List.mem_filter, Bool.and_eq_true, beq_iff_eq]

/-- Folding `erase(remove_if(...))` over a removal list filters by "not
`==`-equal to any removed entry". -/
theorem foldl_removeMeasurement (rs : List processMeasurement)
    (acc : List processMeasurement) :
    rs.foldl removeMeasurement acc
      = acc.filter (fun m => rs.all (fun r => !(Process.eq m.ProcessInfo r.ProcessInfo))) := by
  induction rs generalizing acc with
  | nil => simp
  | cons r rs ih =>
    rw [List.foldl_cons, ih, removeMeasurement, List.filter_filter]
    apply List.filter_congr
    intro m _
    rw [List.all_cons]
    rw [Bool.and_comm]

/-- A survival predicate equivalent to the whole removal phase. -/
def keptB (bs : List (String × List processMeasurement)) (m : processMeasurement) : Bool :=
  bs.all (fun kv =>
    ((sortByPss kv.2).dropLast).all (fun r => !(Process.eq m.ProcessInfo r.ProcessInfo)))

theorem foldl_buckets_filter (bs : List (String × List processMeasurement))
    (acc : List processMeasurement) :
    bs.foldl (fun acc kv => ((sortByPss kv.2).dropLast).foldl removeMeasurement acc) acc
      = acc.filter (fun m => keptB bs m) := by
  induction bs generalizing acc with
  | nil => simp [keptB]
  | cons kv bs ih =>
    rw [List.foldl_cons, ih, foldl_removeMeasurement, List.filter_filter]
    apply List.filter_congr
    intro m _
    simp only [keptB, List.all_cons]
    apply Bool.and_comm

/-- `DeduplicateData` keeps exactly the measurements that are `==`-distinct
from every discarded duplicate. -/
theorem dedup_eq_filter (all : List processMeasurement) :
    DeduplicateData all = all.filter (fun m => keptB (buildDuplicates all) m) := by
  rw [DeduplicateData, foldl_buckets_filter]

theorem sortByPss_perm (l : List processMeasurement) : List.Perm (sortByPss l) l :=
  List.perm_insertionSort _ l

theorem sortByPss_mem (l : List processMeasurement) (x : processMeasurement) :
    x ∈ sortByPss l ↔ x ∈ l := (sortByPss_perm l).mem_iff

theorem sortByPss_sorted (l : List processMeasurement) :
    List.Sorted (fun a b => pssKey a ≤ pssKey b) (sortByPss l) := by
  haveI h1 : IsTotal processMeasurement (fun a b => pssKey a ≤ pssKey b) :=
    ⟨fun a b => le_total _ _⟩
  haveI h2 : IsTrans processMeasurement (fun a b => pssKey a ≤ pssKey b) :=
    ⟨fun a b c hab hbc => le_trans hab hbc⟩
  exact List.sorted_insertionSort _ l

theorem sorted_key_le_getLast (l : List processMeasurement) :
    ∀ (hne : l ≠ []), List.Sorted (fun a b => pssKey a ≤ pssKey b) l →
      ∀ x ∈ l, pssKey x ≤ pssKey (l.getLast hne) := by
  induction l with
  | nil => intro hne; exact absurd rfl hne
  | cons a t ih =>
    intro hne hs x hx
    cases t with
    | nil =>
      rcases List.mem_cons.mp hx with rfl | h
      · exact le_rfl
      · simp at h
    | cons b t' =>
      rw [List.getLast_cons (by simp : b :: t' ≠ [])]
      rcases List.mem_cons.mp hx with rfl | hx'
      · exact (List.sorted_cons.mp hs).1 _ (List.getLast_mem _)
      · exact ih (by simp) (List.sorted_cons.mp hs).2 x hx'

theorem mem_dropLast_iff {α : Type} (l : List α) (hnd : l.Nodup) (hne : l ≠ [])
    (x : α) (hx : x ∈ l) : x ∈ l.dropLast ↔ x ≠ l.getLast hne := by
  have hdecomp := List.dropLast_append_getLast hne
  constructor
  · intro hdl heq
    have hgl : l.getLast hne ∈ l.dropLast := heq ▸ hdl
    have hnd' : (l.dropLast ++ [l.getLast hne]).Nodup := by rw [hdecomp]; exact hnd
    rw [List.nodup_append] at hnd'
    exact hnd'.2.2 hgl (List.mem_singleton_self _)
  · intro hxne
    have hx' : x ∈ l.dropLast ++ [l.getLast hne] := by rw [hdecomp]; exact hx
    rcases List.mem_append.mp hx' with h | h
    · exact h
    · rw [List.mem_singleton] at h
      exact absurd h hxne

theorem isDupB_iff (all : List processMeasurement) (m : processMeasurement) :
    isDupB all m = true ↔ m.ProcessInfo.isDead = true ∧ 1 < dupCount all m := by
  simp [isDupB, hasDuplicate]

theorem mem_dropLast_bucket (all : List processMeasurement) (k : String)
    (v : List processMeasurement) (hkv : (k, v) ∈ buildDuplicates all)
    (m : processMeasurement) (hm : m ∈ (sortByPss v).dropLast) : m ∈ dupOf all k := by
  have h1 : m ∈ sortByPss v := List.dropLast_subset _ hm
  rw [sortByPss_mem] at h1
  exact (bucket_eq_dupOf all k v hkv) ▸ h1

theorem nodup_of_pairwise_neq (all : List processMeasurement)
    (Hinj : all.Pairwise (fun x y => Process.eq x.ProcessInfo y.ProcessInfo = false)) :
    all.Nodup := by
  refine Hinj.imp ?_
  intro a b hab
  rintro rfl
  rw [Process.eq_self] at hab
  exact Bool.noConfusion hab

/-- Characterisation of survival: a measurement survives `DeduplicateData`
iff it is in no bucket's sorted-and-`pop_back`ed removal list. -/
theorem mem_dedup_iff (all : List processMeasurement)
    (Hinj : all.Pairwise (fun x y => Process.eq x.ProcessInfo y.ProcessInfo = false))
    (m : processMeasurement) (hm : m ∈ all) :
    m ∈ DeduplicateData all ↔
      ∀ k v, (k, v) ∈ buildDuplicates all → m ∉ (sortByPss v).dropLast := by
  rw [dedup_eq_filter, List.mem_filter]
  constructor
  · rintro ⟨-, hkept⟩ k v hkv hmem
    rw [keptB, List.all_eq_true] at hkept
    have h1 := hkept (k, v) hkv
    rw [List.all_eq_true] at h1
    have h2 := h1 m hmem
    rw [Process.eq_self] at h2
    simp at h2
  · intro h
    refine ⟨hm, ?_⟩
    rw [keptB, List.all_eq_true]
    rintro ⟨k, v⟩ hkv
    rw [List.all_eq_true]
    intro r hr
    have hrnotm : m ≠ r := fun heq => h k v hkv (heq ▸ hr)
    have hrall : r ∈ all := ((mem_dupOf_iff all k r).mp (mem_dropLast_bucket all k v hkv r hr)).1
    have hsym : Symmetric (fun x y : processMeasurement =>
        Process.eq x.ProcessInfo y.ProcessInfo = false) := by
      intro a b hab
      rw [Process.eq_comm]
      exact hab
    have hf : Process.eq m.ProcessInfo r.ProcessInfo = false :=
      List.Pairwise.forall hsym Hinj hm hrall hrnotm
    rw [hf]
    rfl

/-- C2 (amended): the deduplication pass runs once over the collected
measurements and considers only dead entries.  A dead entry is pooled iff at
least two dead entries share its (cmdline, parent pid) — but the pools are
keyed by cmdline ALONE, so for each cmdline exactly the pooled member with
the highest rounded average PSS survives while every other pooled member of
that cmdline is discarded (even one that tops a different (cmdline, ppid)
group).  Alive entries, and dead entries without a (cmdline, ppid)
duplicate, always survive.  Hypotheses: collected identities are pairwise
`==`-distinct (guaranteed by `CollectData`), and rounded average PSS values
are tie-free among same-cmdline dead entries (`std::sort` is unspecified on
ties). -/
theorem C2_deduplication (all : List processMeasurement)
    (Hinj : all.Pairwise (fun x y => Process.eq x.ProcessInfo y.ProcessInfo = false))
    (Htie : ∀ x ∈ all, ∀ y ∈ all, x ≠ y →
      x.ProcessInfo.isDead = true → y.ProcessInfo.isDead = true →
      x.ProcessInfo.cmdline = y.ProcessInfo.cmdline → pssKey x ≠ pssKey y) :
    (∀ m ∈ all, m.ProcessInfo.isDead = false → m ∈ DeduplicateData all) ∧
    (∀ m ∈ all, dupCount all m ≤ 1 → m ∈ DeduplicateData all) ∧
    (∀ m ∈ all, m.ProcessInfo.isDead = true → 1 < dupCount all m →
      (m ∈ DeduplicateData all ↔
        ∀ x ∈ all, x.ProcessInfo.isDead = true → 1 < dupCount all x →
          x.ProcessInfo.cmdline = m.ProcessInfo.cmdline → pssKey x ≤ pssKey m)) := by
  have hndall : all.Nodup := nodup_of_pairwise_neq all Hinj
  have hsurv : ∀ m ∈ all, isDupB all m = false → m ∈ DeduplicateData all := by
    intro m hm hfalse
    rw [mem_dedup_iff all Hinj m hm]
    intro k v hkv hmem
    have hdup := (mem_dupOf_iff all k m).mp (mem_dropLast_bucket all k v hkv m hmem)
    rw [hdup.2.1] at hfalse
    exact Bool.noConfusion hfalse
  refine ⟨?_, ?_, ?_⟩
  · intro m hm halive
    apply hsurv m hm
    rw [isDupB, halive]
    rfl
  · intro m hm hcount
    apply hsurv m hm
    rw [isDupB, hasDuplicate]
    have hnot : ¬ (1 < dupCount all m) := by omega
    simp [hnot]
  · intro m hm hdead hcount
    have hdupm : isDupB all m = true := (isDupB_iff all m).mpr ⟨hdead, hcount⟩
    have hmvm : m ∈ dupOf all m.ProcessInfo.cmdline :=
      (mem_dupOf_iff all _ m).mpr ⟨hm, hdupm, rfl⟩
    have hvne : dupOf all m.ProcessInfo.cmdline ≠ [] := by
      intro h
      rw [h] at hmvm
      exact List.not_mem_nil m hmvm
    have hbucket : (m.ProcessInfo.cmdline, dupOf all m.ProcessInfo.cmdline)
        ∈ buildDuplicates all := dupOf_bucket_mem all _ hvne
    have hml : m ∈ sortByPss (dupOf all m.ProcessInfo.cmdline) := by
      rw [sortByPss_mem]
      exact hmvm
    have hlne : sortByPss (dupOf all m.ProcessInfo.cmdline) ≠ [] := by
      intro h
      rw [h] at hml
      exact List.not_mem_nil m hml
    have hndvm : (dupOf all m.ProcessInfo.cmdline).Nodup := hndall.filter _
    have hndl : (sortByPss (dupOf all m.ProcessInfo.cmdline)).Nodup :=
      ((sortByPss_perm _).nodup_iff).mpr hndvm
    have hsorted := sortByPss_sorted (dupOf all m.ProcessInfo.cmdline)
    constructor
    · intro hdedup x hx hxdead hxcount hxcmd
      have hnot := (mem_dedup_iff all Hinj m hm).mp hdedup _ _ hbucket
      have hmgl : m = (sortByPss (dupOf all m.ProcessInfo.cmdline)).getLast hlne := by
        by_contra hne
        exact hnot ((mem_dropLast_iff _ hndl hlne m hml).mpr hne)
      have hxvm : x ∈ dupOf all m.ProcessInfo.cmdline := (mem_dupOf_iff all _ x).mpr
        ⟨hx, (isDupB_iff all x).mpr ⟨hxdead, hxcount⟩, hxcmd⟩
      have hxl : x ∈ sortByPss (dupOf all m.ProcessInfo.cmdline) := by
        rw [sortByPss_mem]
        exact hxvm
      calc pssKey x
          ≤ pssKey ((sortByPss (dupOf all m.ProcessInfo.cmdline)).getLast hlne) :=
            sorted_key_le_getLast _ hlne hsorted x hxl
        _ = pssKey m := by rw [← hmgl]
    · intro hmax
      rw [mem_dedup_iff all Hinj m hm]
      intro k v hkv hmem
      have hmdup := (mem_dupOf_iff all k m).mp (mem_dropLast_bucket all k v hkv m hmem)
      have hkm : k = m.ProcessInfo.cmdline := hmdup.2.2.symm
      subst hkm
      have hveq : v = dupOf all m.ProcessInfo.cmdline := bucket_eq_dupOf all _ v hkv
      rw [hveq] at hmem
      have hmne : m ≠ (sortByPss (dupOf all m.ProcessInfo.cmdline)).getLast hlne :=
        (mem_dropLast_iff _ hndl hlne m hml).mp hmem
      have hgll : (sortByPss (dupOf all m.ProcessInfo.cmdline)).getLast hlne
          ∈ sortByPss (dupOf all m.ProcessInfo.cmdline) := List.getLast_mem hlne
      have hglvm : (sortByPss (dupOf all m.ProcessInfo.cmdline)).getLast hlne
          ∈ dupOf all m.ProcessInfo.cmdline := by
        rw [sortByPss_mem] at hgll
        exact hgll
      have hglfacts := (mem_dupOf_iff all _ _).mp hglvm
      have hgldup := (isDupB_iff all _).mp hglfacts.2.1
      have h1 : pssKey ((sortByPss (dupOf all m.ProcessInfo.cmdline)).getLast hlne)
          ≤ pssKey m :=
        hmax _ hglfacts.1 hgldup.1 hgldup.2 hglfacts.2.2
      have h2 : pssKey m
          ≤ pssKey ((sortByPss (dupOf all m.ProcessInfo.cmdline)).getLast hlne) :=
        sorted_key_le_getLast _ hlne hsorted m hml
      exact Htie m hm _ hglfacts.1 hmne hdead hgldup.1 hglfacts.2.2.symm
        (le_antisymm h2 h1)

/-- A measurement whose PSS accumulator is seeded so that its average is the
given value (the deduplication pass reads only the rounded average). -/
def mkPM (pid ppid : ℤ) (cmd : String) (dead : Bool) (avgPss : ℚ) : processMeasurement :=
  ⟨⟨pid, ppid, cmd, dead⟩, ⟨"PSS", 1, avgPss, avgPss, avgPss, avgPss⟩⟩

/-- Two dead (cmdline "c", ppid 1) entries with averages 10 and 20, and two
dead (cmdline "c", ppid 2) entries with averages 30 and 5. -/
def cexMeasurements : List processMeasurement :=
  [mkPM 1 1 "c" true 10, mkPM 2 1 "c" true 20,
   mkPM 3 2 "c" true 30, mkPM 4 2 "c" true 5]

theorem pssKey_mkPM (pid ppid : ℤ) (cmd : String) (dead : Bool) (avgPss : ℚ) :
    pssKey (mkPM pid ppid cmd dead avgPss) = cround avgPss := rfl

/-- Concrete evaluation of the duplicate-selection sort on the
counterexample list (keys 10, 20, 30, 5 ascending). -/
theorem sortByPss_cex :
    sortByPss cexMeasurements =
      [mkPM 4 2 "c" true 5, mkPM 1 1 "c" true 10,
       mkPM 2 1 "c" true 20, mkPM 3 2 "c" true 30] := by
  have k10 : cround 10 = 10 := by norm_num [cround]
  have k20 : cround 20 = 20 := by norm_num [cround]
  have k30 : cround 30 = 30 := by norm_num [cround]
  have k5 : cround 5 = 5 := by norm_num [cround]
  simp [sortByPss, cexMeasurements, List.insertionSort, List.orderedInsert,
    pssKey_mkPM, k10, k20, k30, k5]

/-- C2 counterexample: in the four-entry list above, the (cmdline "c",
ppid 1) group's highest-average member (average 20) must survive according
to the claim's per-(cmdline, ppid) grouping — but `DeduplicateData` pools
duplicates by cmdline alone and keeps only the overall highest (average 30),
so the average-20 entry is discarded. -/
theorem C2_deduplication_counterexample :
    (∀ x ∈ cexMeasurements,
       x.ProcessInfo.cmdline = (mkPM 2 1 "c" true 20).ProcessInfo.cmdline →
       x.ProcessInfo.ppid = (mkPM 2 1 "c" true 20).ProcessInfo.ppid →
       pssKey x ≤ pssKey (mkPM 2 1 "c" true 20)) ∧
    (mkPM 2 1 "c" true 20).ProcessInfo.isDead = true ∧
    1 < dupCount cexMeasurements (mkPM 2 1 "c" true 20) ∧
    mkPM 2 1 "c" true 20 ∈ cexMeasurements ∧
    mkPM 2 1 "c" true 20 ∉ DeduplicateData cexMeasurements := by
  have hmem2 : mkPM 2 1 "c" true 20 ∈ cexMeasurements :=
    List.mem_cons_of_mem _ (List.mem_cons_self _ _)
  refine ⟨?_, rfl, by decide, hmem2, ?_⟩
  · intro x hx hcmd hppid
    fin_cases hx
    · rw [pssKey_mkPM, pssKey_mkPM]
      norm_num [cround]
    · exact le_rfl
    · exact absurd hppid (by decide)
    · exact absurd hppid (by decide)
  · intro habs
    have hdupOf : dupOf cexMeasurements "c" = cexMeasurements := by decide
    have hvne : dupOf cexMeasurements "c" ≠ [] := by
      rw [hdupOf]
      exact List.cons_ne_nil _ _
    have hbucket : ("c", dupOf cexMeasurements "c") ∈ buildDuplicates cexMeasurements :=
      dupOf_bucket_mem _ _ hvne
    have hchar := (mem_dedup_iff cexMeasurements (by decide) _ hmem2).mp habs
      "c" (dupOf cexMeasurements "c") hbucket
    apply hchar
    rw [hdupOf, sortByPss_cex]
    exact List.mem_cons_of_mem _ (List.mem_cons_of_mem _ (List.mem_cons_self _ _))

/-- The spec's deduplication scenario: three dead entries with identical
(cmdline, ppid) and averages 10, 30, 20, plus an alive entry with the same
cmdline. -/
def dedupScenario : List processMeasurement :=
  [mkPM 11 7 "s" true 10, mkPM 12 7 "s" true 30,
   mkPM 13 7 "s" true 20, mkPM 14 9 "s" false 40]

/-- Witness for C2 on the spec's scenario list. -/
theorem C2_deduplication_witness :
    (∀ m ∈ dedupScenario, m.ProcessInfo.isDead = false →
       m ∈ DeduplicateData dedupScenario) ∧
    (∀ m ∈ dedupScenario, dupCount dedupScenario m ≤ 1 →
       m ∈ DeduplicateData dedupScenario) ∧
    (∀ m ∈ dedupScenario, m.ProcessInfo.isDead = true →
       1 < dupCount dedupScenario m →
      (m ∈ DeduplicateData dedupScenario ↔
        ∀ x ∈ dedupScenario, x.ProcessInfo.isDead = true →
          1 < dupCount dedupScenario x →
          x.ProcessInfo.cmdline = m.ProcessInfo.cmdline → pssKey x ≤ pssKey m)) :=
  C2_deduplication dedupScenario (by decide) (by
    intro x hx y hy hne hdx hdy hcmd
    fin_cases hx <;> fin_cases hy <;>
      first
        | exact absurd rfl hne
        | exact Bool.noConfusion hdx
        | exact Bool.noConfusion hdy
        | (rw [pssKey_mkPM, pssKey_mkPM]; norm_num [cround]))

end MemCapture
